import Mathlib

/-!
Verification of the jenkins-job-manager reconciliation engine and CLI glue.

The repository ships `jenkins_job_manager/cli.py` (the CLI layer, embedded
below in the `Cli` namespace directly from the source) and, per its spec, a
reconciliation core (`jenkins_job_manager/core.py`, the `JenkinsJobManager`
class with `gather`, `plan_report`, `apply_plan`, change detection) that is
not part of the visible sources.  The core is therefore modelled from the
spec, definition by definition, in the `Core` namespace.
-/

set_option autoImplicit false

namespace Core

/-- Modelled from the spec: `JobDefinition` of the missing
`jenkins_job_manager/core.py` — a locally declared job: its unique name and
its compiled canonical XML body. -/
structure JobDefinition where
  name : String
  canonicalXML : String
  deriving Repr, DecidableEq

/-- Modelled from the spec: `RemoteJob` of the missing core — a job present
on the remote Jenkins server: its name and live XML body. -/
structure RemoteJob where
  name : String
  liveXML : String
  deriving Repr, DecidableEq

/-- Modelled from the spec: the `ChangeKind` enumeration of the missing
core: Create, Update, Delete, Noop. -/
inductive ChangeKind where
  | Create
  | Update
  | Delete
  | Noop
  deriving Repr, DecidableEq

/-- Modelled from the spec: a `Change` of the missing core — derived data,
one per job the detector looked at. -/
structure Change where
  name : String
  kind : ChangeKind
  desired : Option String
  observed : Option String
  diffLines : List String
  deriving Repr, DecidableEq

/-- Modelled from the spec: a `Plan` of the missing core — the ordered
change list, aggregate counts and the hasChanges flag. -/
structure Plan where
  changes : List Change
  creates : Nat
  updates : Nat
  deletes : Nat
  hasChanges : Bool
  deriving Repr, DecidableEq

/-- Modelled from the spec: `ApplyResult` of the missing core. -/
structure ApplyResult where
  attempted : Nat
  succeeded : Nat
  failed : List (String × String)
  deriving Repr, DecidableEq

/-- Split an XML body into its lines, the unit of the line-level diff. -/
def splitLines (s : String) : List String :=
  s.splitOn "\n"

/-- Modelled from the spec: the line-level diff of the missing core's
detector (§4.1 step 3): each emitted line carries a leading marker,
`+` for a desired-only line, `-` for an observed-only line, ` ` for a
context line. -/
def lineDiff : List String → List String → List String
  | [], [] => []
  | [], o :: os => ("-" ++ o) :: lineDiff [] os
  | d :: ds, [] => ("+" ++ d) :: lineDiff ds []
  | d :: ds, o :: os =>
    if d = o then (" " ++ d) :: lineDiff ds os
    else ("-" ++ o) :: ("+" ++ d) :: lineDiff ds os
  termination_by a b => a.length + b.length

/-- Modelled from the spec: the per-job step of the missing core's change
detector (§4.1 steps 2–3): a desired job maps to a Create when absent from
observed state, otherwise to a Noop or Update after canonicalizing both
sides with the same function. -/
def detectOne (canon : String → String) (observed : List RemoteJob)
    (d : JobDefinition) : Change :=
  match observed.find? (fun r => r.name = d.name) with
  | none =>
    { name := d.name, kind := .Create, desired := some d.canonicalXML,
      observed := none, diffLines := [] }
  | some r =>
    let dx := canon d.canonicalXML
    let ox := canon r.liveXML
    if dx = ox then
      { name := d.name, kind := .Noop, desired := some d.canonicalXML,
        observed := some r.liveXML, diffLines := [] }
    else
      { name := d.name, kind := .Update, desired := some d.canonicalXML,
        observed := some r.liveXML,
        diffLines := lineDiff (splitLines dx) (splitLines ox) }

/-- Modelled from the spec: step 4 of the missing core's detector — observed
jobs absent from desired state become Deletes, in observed-discovery order,
skipping names exempt as unmanaged. -/
def detectDeletes (exempt : List String) (desired : List JobDefinition)
    (observed : List RemoteJob) : List Change :=
  observed.filterMap (fun r =>
    if desired.any (fun d => d.name = r.name) then none
    else if exempt.contains r.name then none
    else some { name := r.name, kind := .Delete, desired := none,
                observed := some r.liveXML, diffLines := [] })

/-- Modelled from the spec: `detect` of the missing core (§4.1) — Creates,
Updates and Noops in desired-input order, then Deletes in observed order;
counts per kind; hasChanges true iff some change is not a Noop. -/
def detect (canon : String → String) (exempt : List String)
    (desired : List JobDefinition) (observed : List RemoteJob) : Plan :=
  let cs := desired.map (detectOne canon observed) ++
    detectDeletes exempt desired observed
  { changes := cs
    creates := cs.countP (fun c => c.kind = .Create)
    updates := cs.countP (fun c => c.kind = .Update)
    deletes := cs.countP (fun c => c.kind = .Delete)
    hasChanges := cs.any (fun c => c.kind ≠ .Noop) }

/-- Modelled from the spec: the header line the missing core's renderer
emits for a change, identifying the job and change kind. -/
def headerLine (c : Change) : String :=
  let k :=
    match c.kind with
    | .Create => "create"
    | .Update => "update"
    | .Delete => "delete"
    | .Noop => "noop"
  k ++ " job " ++ c.name

/-- Modelled from the spec: `render` / `plan_report` of the missing core
(§4.2) — for each non-Noop change, a header line followed by its diff
lines; Noop changes contribute nothing. -/
def render (plan : Plan) : List String :=
  plan.changes.flatMap (fun c =>
    if c.kind = .Noop then [] else headerLine c :: c.diffLines)

/-- Modelled from the spec: one remote mutation of the missing core's
applier — the outcome of pushing or deleting one job; `none` is success,
`some msg` a per-step RemoteError. -/
def StepOutcome := Change → Option String

/-- Modelled from the spec: one step of the missing core's applier (§4.3).
A Noop is not pushed; any other change is attempted, and its outcome —
success or a per-step error — is recorded independently in the running
`ApplyResult`. -/
def applyStep (remote : StepOutcome) (acc : ApplyResult) (c : Change) :
    ApplyResult :=
  if c.kind = .Noop then acc
  else
    match remote c with
    | none =>
      { acc with attempted := acc.attempted + 1,
                 succeeded := acc.succeeded + 1 }
    | some e =>
      { acc with attempted := acc.attempted + 1,
                 failed := acc.failed ++ [(c.name, e)] }

/-- Modelled from the spec: `apply` / `apply_plan` of the missing core
(§4.3) — every non-Noop change is attempted in plan order, each outcome is
recorded independently, and a failed step never aborts the later steps. -/
def applyPlan (remote : StepOutcome) (plan : Plan) : ApplyResult :=
  plan.changes.foldl (applyStep remote) ⟨0, 0, []⟩

/-- The error entry a single change contributes to `ApplyResult.failed`:
nothing for a Noop or a successful step, the job name paired with the
error message for a failed step. -/
def stepError (remote : StepOutcome) (c : Change) :
    Option (String × String) :=
  if c.kind = .Noop then none
  else (remote c).map (fun e => (c.name, e))

/-- Modelled from the spec: a RemoteError raised while fetching observed
state. -/
structure RemoteError where
  status : Nat
  message : String
  deriving Repr, DecidableEq

/-- Modelled from the spec: `gather` of the missing core (§6, §7) — fetch
observed state, then run the detector; a fetch failure aborts gather
entirely, producing no plan. -/
def gather (canon : String → String) (exempt : List String)
    (desired : List JobDefinition)
    (fetchObserved : Except RemoteError (List RemoteJob)) :
    Except RemoteError Plan :=
  match fetchObserved with
  | .error e => .error e
  | .ok observed => .ok (detect canon exempt desired observed)

end Core

namespace Cli

/-- The environment a CLI command runs against, abstracting the collaborator
calls `cli.py` makes on the `JenkinsJobManager` object and on the terminal:
the result of `check_authentication()`, the value of `detected_changes()`
once `gather()` has run, and the user's answer to `click.confirm`. -/
structure CliEnv where
  authOk : Bool
  hasChanges : Bool
  confirmApply : Bool
  deriving Repr, DecidableEq

/-- What a CLI command did: the process exit status it terminates with
(0 for a normal return) and which collaborator calls it reached. -/
structure CmdResult where
  exitCode : Nat
  gathered : Bool
  applied : Bool
  imported : Bool
  deriving Repr, DecidableEq

/-- `check_auth` of `cli.py`: when `check_authentication()` is false it
raises `Exit(1)`; otherwise it returns normally. -/
def check_auth (authOk : Bool) : Except Nat Unit :=
  if authOk then .ok () else .error 1

/-- `handle_plan_report` of `cli.py`: reports the plan and returns whether
changes were detected.  The terminal output itself is an excluded
collaborator; only the returned boolean feeds control flow. -/
def handle_plan_report (env : CliEnv) : Bool :=
  env.hasChanges

/-- `jjm_plan` of `cli.py`: auth check, gather, plan report.  On the
changes branch the source evaluates `click.exceptions.Exit(2)` without
`raise`, so the constructed exception is discarded and the command still
returns normally. -/
def jjm_plan (env : CliEnv) : CmdResult :=
  match check_auth env.authOk with
  | .error c => { exitCode := c, gathered := false, applied := false,
                  imported := false }
  | .ok _ =>
    let changes := handle_plan_report env
    let _unraisedExit2 := if changes then some (2 : Nat) else none
    { exitCode := 0, gathered := true, applied := false, imported := false }

/-- `jjm_apply` of `cli.py`: auth check, gather; return early when nothing
changed; otherwise report, ask `click.confirm` (which aborts the command
with a nonzero status when declined) and only then call `apply_plan`. -/
def jjm_apply (env : CliEnv) : CmdResult :=
  match check_auth env.authOk with
  | .error c => { exitCode := c, gathered := false, applied := false,
                  imported := false }
  | .ok _ =>
    if !env.hasChanges then
      { exitCode := 0, gathered := true, applied := false,
        imported := false }
    else if !env.confirmApply then
      { exitCode := 1, gathered := true, applied := false,
        imported := false }
    else
      { exitCode := 0, gathered := true, applied := true, imported := false }

/-- `jjm_import` of `cli.py`: auth check, gather, `import_missing`. -/
def jjm_import (env : CliEnv) : CmdResult :=
  match check_auth env.authOk with
  | .error c => { exitCode := c, gathered := false, applied := false,
                  imported := false }
  | .ok _ =>
    { exitCode := 0, gathered := true, applied := false, imported := true }

end Cli

namespace Core

theorem detectOne_name (canon : String → String) (observed : List RemoteJob)
    (d : JobDefinition) : (detectOne canon observed d).name = d.name := by
  unfold detectOne
  cases h : observed.find? (fun r => r.name = d.name) with
  | none => rfl
  | some r =>
    dsimp only
    split <;> rfl

theorem detectOne_kind_ne_delete (canon : String → String)
    (observed : List RemoteJob) (d : JobDefinition) :
    ¬ (detectOne canon observed d).kind = ChangeKind.Delete := by
  unfold detectOne
  cases h : observed.find? (fun r => r.name = d.name) with
  | none => simp
  | some r =>
    dsimp only
    split <;> simp

theorem detectOne_kind_create_iff (canon : String → String)
    (observed : List RemoteJob) (d : JobDefinition) :
    (detectOne canon observed d).kind = ChangeKind.Create ↔
      observed.find? (fun r => r.name = d.name) = none := by
  unfold detectOne
  cases h : observed.find? (fun r => r.name = d.name) with
  | none => simp
  | some r =>
    dsimp only
    split <;> simp

theorem detectOne_create (canon : String → String)
    (observed : List RemoteJob) (d : JobDefinition)
    (h : observed.find? (fun r => r.name = d.name) = none) :
    detectOne canon observed d =
      { name := d.name, kind := ChangeKind.Create,
        desired := some d.canonicalXML, observed := none, diffLines := [] } := by
  unfold detectOne
  rw [h]

theorem detectOne_noop (canon : String → String) (observed : List RemoteJob)
    (d : JobDefinition) (r : RemoteJob)
    (h : observed.find? (fun x => x.name = d.name) = some r)
    (heq : canon d.canonicalXML = canon r.liveXML) :
    detectOne canon observed d =
      { name := d.name, kind := ChangeKind.Noop,
        desired := some d.canonicalXML, observed := some r.liveXML,
        diffLines := [] } := by
  unfold detectOne
  rw [h]
  dsimp only
  rw [if_pos heq]

theorem filterMap_guard {α β : Type} (p : α → Bool) (g : α → β)
    (f : α → Option β) (hf : ∀ a, f a = if p a then some (g a) else none) :
    ∀ l : List α, l.filterMap f = (l.filter p).map g := by
  intro l
  induction l with
  | nil => simp
  | cons a tl ih =>
    rw [List.filterMap_cons, List.filter_cons, hf a]
    cases hp : p a <;> simp [hp, ih]

theorem detectDeletes_eq (exempt : List String)
    (desired : List JobDefinition) (observed : List RemoteJob) :
    detectDeletes exempt desired observed =
      (observed.filter (fun r =>
          !desired.any (fun d => d.name = r.name) &&
            !exempt.contains r.name)).map
        (fun r => { name := r.name, kind := ChangeKind.Delete,
                    desired := none, observed := some r.liveXML,
                    diffLines := [] }) := by
  refine filterMap_guard _ _ _ (fun r => ?_) observed
  cases h1 : desired.any (fun d => d.name = r.name) <;>
    cases h2 : exempt.contains r.name <;>
      simp [h1, h2]

theorem detectDeletes_kind (exempt : List String)
    (desired : List JobDefinition) (observed : List RemoteJob) :
    ∀ c ∈ detectDeletes exempt desired observed,
      c.kind = ChangeKind.Delete := by
  rw [detectDeletes_eq]
  intro c hc
  rcases List.mem_map.mp hc with ⟨r, -, rfl⟩
  rfl

theorem find?_name_of_nodup (observed : List RemoteJob)
    (ho : (observed.map RemoteJob.name).Nodup) (r : RemoteJob)
    (hr : r ∈ observed) (n : String) (hn : r.name = n) :
    observed.find? (fun x => x.name = n) = some r := by
  have hsome : (observed.find? (fun x => x.name = n)).isSome := by
    rw [List.find?_isSome]
    exact ⟨r, hr, by simp [hn]⟩
  rcases Option.isSome_iff_exists.mp hsome with ⟨a, ha⟩
  have hamem : a ∈ observed := List.mem_of_find?_eq_some ha
  have haname : a.name = n := by
    have := List.find?_some ha
    simpa using this
  have : a = r :=
    List.inj_on_of_nodup_map ho hamem hr (haname.trans hn.symm)
  rw [ha, this]

theorem any_name_eq (desired : List JobDefinition) (n : String) :
    desired.any (fun d => d.name = n) =
      decide (n ∈ desired.map JobDefinition.name) := by
  cases h : desired.any (fun d => d.name = n) with
  | true =>
    rcases List.any_eq_true.mp h with ⟨d, hd, hdn⟩
    have hm : n ∈ desired.map JobDefinition.name :=
      List.mem_map.mpr ⟨d, hd, by simpa using hdn⟩
    simp [hm]
  | false =>
    have h' := List.any_eq_false.mp h
    have hm : ¬ n ∈ desired.map JobDefinition.name := by
      rw [List.mem_map]
      rintro ⟨d, hd, hdn⟩
      exact (h' d hd) (by simpa using hdn)
    simp [hm]

theorem contains_name_eq (exempt : List String) (n : String) :
    exempt.contains n = decide (n ∈ exempt) := by
  cases h : exempt.contains n with
  | true =>
    have hm : n ∈ exempt := List.elem_iff.mp h
    simp [hm]
  | false =>
    have hm : ¬ n ∈ exempt := by
      intro hmem
      have ht : exempt.contains n = true := List.elem_iff.mpr hmem
      rw [h] at ht
      exact Bool.false_ne_true ht
    simp [hm]

theorem createNames (canon : String → String) (observed : List RemoteJob) :
    ∀ desired : List JobDefinition,
      ((desired.map (detectOne canon observed)).filter
          (fun c => c.kind = ChangeKind.Create)).map Change.name =
        (desired.map JobDefinition.name).filter
          (fun m => ¬ m ∈ observed.map RemoteJob.name) := by
  intro desired
  induction desired with
  | nil => rfl
  | cons d ds ih =>
    cases hf : observed.find? (fun r => r.name = d.name) with
    | none =>
      have hm : ¬ d.name ∈ observed.map RemoteJob.name := by
        rw [List.mem_map]
        rintro ⟨r, hr, hrn⟩
        exact (List.find?_eq_none.mp hf r hr) (by simpa using hrn)
      have hhead := detectOne_create canon observed d hf
      calc (((d :: ds).map (detectOne canon observed)).filter
              (fun c => c.kind = ChangeKind.Create)).map Change.name
          = ((({ name := d.name, kind := ChangeKind.Create,
                 desired := some d.canonicalXML, observed := none,
                 diffLines := [] } : Change) ::
                ds.map (detectOne canon observed)).filter
              (fun c => c.kind = ChangeKind.Create)).map Change.name := by
            rw [List.map_cons, hhead]
        _ = d.name :: ((ds.map (detectOne canon observed)).filter
              (fun c => c.kind = ChangeKind.Create)).map Change.name := by
            rw [List.filter_cons_of_pos rfl, List.map_cons]
        _ = d.name :: (ds.map JobDefinition.name).filter
              (fun m => ¬ m ∈ observed.map RemoteJob.name) := by
            rw [ih]
        _ = ((d :: ds).map JobDefinition.name).filter
              (fun m => ¬ m ∈ observed.map RemoteJob.name) := by
            rw [List.map_cons]
            simp only [List.filter_cons]
            rw [if_pos (decide_eq_true hm)]
    | some r =>
      have hk : ¬ (detectOne canon observed d).kind = ChangeKind.Create := by
        rw [detectOne_kind_create_iff, hf]
        simp
      have hm : d.name ∈ observed.map RemoteJob.name := by
        refine List.mem_map.mpr ⟨r, List.mem_of_find?_eq_some hf, ?_⟩
        simpa using List.find?_some hf
      have hk' : ¬ (decide ((detectOne canon observed d).kind =
          ChangeKind.Create)) = true := by
        simp [hk]
      have hm' : ¬ (decide (¬ d.name ∈ observed.map RemoteJob.name)) =
          true := by
        simp [hm]
      calc (((d :: ds).map (detectOne canon observed)).filter
              (fun c => c.kind = ChangeKind.Create)).map Change.name
          = ((ds.map (detectOne canon observed)).filter
              (fun c => c.kind = ChangeKind.Create)).map Change.name := by
            rw [List.map_cons]
            simp only [List.filter_cons]
            rw [if_neg hk']
        _ = (ds.map JobDefinition.name).filter
              (fun m => ¬ m ∈ observed.map RemoteJob.name) := ih
        _ = ((d :: ds).map JobDefinition.name).filter
              (fun m => ¬ m ∈ observed.map RemoteJob.name) := by
            rw [List.map_cons]
            simp only [List.filter_cons]
            rw [if_neg hm']

theorem deleteNames (exempt : List String) (desired : List JobDefinition)
    (observed : List RemoteJob) :
    (detectDeletes exempt desired observed).map Change.name =
      (observed.map RemoteJob.name).filter
        (fun m => ¬ m ∈ desired.map JobDefinition.name ∧ ¬ m ∈ exempt) := by
  rw [detectDeletes_eq, List.map_map, List.filter_map]
  refine congrArg (List.map RemoteJob.name) (List.filter_congr ?_)
  intro r _
  show (!desired.any (fun d => d.name = r.name) && !exempt.contains r.name) =
    decide (¬ r.name ∈ desired.map JobDefinition.name ∧ ¬ r.name ∈ exempt)
  rw [any_name_eq, contains_name_eq]
  cases h1 : decide (r.name ∈ desired.map JobDefinition.name) <;>
    cases h2 : decide (r.name ∈ exempt) <;>
      simp_all

theorem detect_changes_eq (canon : String → String) (exempt : List String)
    (desired : List JobDefinition) (observed : List RemoteJob) :
    (detect canon exempt desired observed).changes =
      desired.map (detectOne canon observed) ++
        detectDeletes exempt desired observed := rfl

theorem detect_filter_nonDelete (canon : String → String)
    (exempt : List String) (desired : List JobDefinition)
    (observed : List RemoteJob) :
    (detect canon exempt desired observed).changes.filter
        (fun c => ¬ c.kind = ChangeKind.Delete) =
      desired.map (detectOne canon observed) := by
  rw [detect_changes_eq, List.filter_append]
  have hA : (desired.map (detectOne canon observed)).filter
      (fun c => ¬ c.kind = ChangeKind.Delete) =
      desired.map (detectOne canon observed) := by
    rw [List.filter_eq_self]
    intro c hc
    rcases List.mem_map.mp hc with ⟨d, -, rfl⟩
    exact decide_eq_true (detectOne_kind_ne_delete canon observed d)
  have hB : (detectDeletes exempt desired observed).filter
      (fun c => ¬ c.kind = ChangeKind.Delete) = [] := by
    rw [List.filter_eq_nil_iff]
    intro c hc
    simp [detectDeletes_kind exempt desired observed c hc]
  rw [hA, hB, List.append_nil]

theorem detect_filter_delete (canon : String → String)
    (exempt : List String) (desired : List JobDefinition)
    (observed : List RemoteJob) :
    (detect canon exempt desired observed).changes.filter
        (fun c => c.kind = ChangeKind.Delete) =
      detectDeletes exempt desired observed := by
  rw [detect_changes_eq, List.filter_append]
  have hA : (desired.map (detectOne canon observed)).filter
      (fun c => c.kind = ChangeKind.Delete) = [] := by
    rw [List.filter_eq_nil_iff]
    intro c hc
    rcases List.mem_map.mp hc with ⟨d, -, rfl⟩
    simp [detectOne_kind_ne_delete canon observed d]
  rw [hA, List.nil_append]
  rw [List.filter_eq_self]
  intro c hc
  exact decide_eq_true (detectDeletes_kind exempt desired observed c hc)

theorem detect_filter_create (canon : String → String)
    (exempt : List String) (desired : List JobDefinition)
    (observed : List RemoteJob) :
    ((detect canon exempt desired observed).changes.filter
        (fun c => c.kind = ChangeKind.Create)).map Change.name =
      (desired.map JobDefinition.name).filter
        (fun m => ¬ m ∈ observed.map RemoteJob.name) := by
  rw [detect_changes_eq, List.filter_append, List.map_append]
  have hB : (detectDeletes exempt desired observed).filter
      (fun c => c.kind = ChangeKind.Create) = [] := by
    rw [List.filter_eq_nil_iff]
    intro c hc
    simp [detectDeletes_kind exempt desired observed c hc]
  rw [hB, createNames]
  simp

theorem detect_delete_names (canon : String → String)
    (exempt : List String) (desired : List JobDefinition)
    (observed : List RemoteJob) :
    ((detect canon exempt desired observed).changes.filter
        (fun c => c.kind = ChangeKind.Delete)).map Change.name =
      (observed.map RemoteJob.name).filter
        (fun m => ¬ m ∈ desired.map JobDefinition.name ∧ ¬ m ∈ exempt) := by
  rw [detect_filter_delete, deleteNames]

theorem applyFold_attempted (remote : StepOutcome) (cs : List Change) :
    ∀ acc : ApplyResult,
      (cs.foldl (applyStep remote) acc).attempted =
        acc.attempted + cs.countP (fun c => ¬ c.kind = ChangeKind.Noop) := by
  induction cs with
  | nil => intro acc; simp
  | cons c cs ih =>
    intro acc
    rw [List.foldl_cons, ih, List.countP_cons]
    by_cases hc : c.kind = ChangeKind.Noop
    · simp [applyStep, hc]
    · cases hr : remote c <;> simp [applyStep, hc, hr] <;> omega

theorem applyFold_failed (remote : StepOutcome) (cs : List Change) :
    ∀ acc : ApplyResult,
      (cs.foldl (applyStep remote) acc).failed =
        acc.failed ++ cs.filterMap (stepError remote) := by
  induction cs with
  | nil => intro acc; simp
  | cons c cs ih =>
    intro acc
    rw [List.foldl_cons, ih, List.filterMap_cons]
    by_cases hc : c.kind = ChangeKind.Noop
    · simp [applyStep, stepError, hc]
    · cases hr : remote c <;>
        simp [applyStep, stepError, hc, hr, List.append_assoc]

theorem applyFold_sum (remote : StepOutcome) (cs : List Change) :
    ∀ acc : ApplyResult,
      (cs.foldl (applyStep remote) acc).succeeded +
          (cs.foldl (applyStep remote) acc).failed.length =
        acc.succeeded + acc.failed.length +
          cs.countP (fun c => ¬ c.kind = ChangeKind.Noop) := by
  induction cs with
  | nil => intro acc; simp
  | cons c cs ih =>
    intro acc
    rw [List.foldl_cons, ih, List.countP_cons]
    by_cases hc : c.kind = ChangeKind.Noop
    · simp [applyStep, hc]
    · cases hr : remote c <;> simp [applyStep, hc, hr] <;> omega

theorem lineDiff_markers_general :
    ∀ (a b : List String), ∀ l ∈ lineDiff a b,
      (∃ t ∈ a, l = "+" ++ t) ∨ (∃ t ∈ b, l = "-" ++ t) ∨
        (∃ t, t ∈ a ∧ t ∈ b ∧ l = " " ++ t) := by
  intro a b
  induction a, b using lineDiff.induct with
  | case1 =>
    intro l hl
    simp [lineDiff] at hl
  | case2 o os ih =>
    intro l hl
    simp only [lineDiff] at hl
    rcases List.mem_cons.mp hl with rfl | hl'
    · exact Or.inr (Or.inl ⟨o, List.mem_cons_self o os, rfl⟩)
    · rcases ih l hl' with ⟨t, ht, -⟩ | ⟨t, ht, rfl⟩ | ⟨t, ht, -, -⟩
      · simp at ht
      · exact Or.inr (Or.inl ⟨t, List.mem_cons_of_mem o ht, rfl⟩)
      · simp at ht
  | case3 d ds ih =>
    intro l hl
    simp only [lineDiff] at hl
    rcases List.mem_cons.mp hl with rfl | hl'
    · exact Or.inl ⟨d, List.mem_cons_self d ds, rfl⟩
    · rcases ih l hl' with ⟨t, ht, rfl⟩ | ⟨t, ht, -⟩ | ⟨t, -, ht, -⟩
      · exact Or.inl ⟨t, List.mem_cons_of_mem d ht, rfl⟩
      · simp at ht
      · simp at ht
  | case4 ds o os ih =>
    intro l hl
    simp only [lineDiff] at hl
    rw [if_pos trivial] at hl
    rcases List.mem_cons.mp hl with rfl | hl'
    · exact Or.inr (Or.inr
        ⟨o, List.mem_cons_self o ds, List.mem_cons_self o os, rfl⟩)
    · rcases ih l hl' with ⟨t, ht, rfl⟩ | ⟨t, ht, rfl⟩ | ⟨t, ht1, ht2, rfl⟩
      · exact Or.inl ⟨t, List.mem_cons_of_mem o ht, rfl⟩
      · exact Or.inr (Or.inl ⟨t, List.mem_cons_of_mem o ht, rfl⟩)
      · exact Or.inr (Or.inr ⟨t, List.mem_cons_of_mem o ht1,
          List.mem_cons_of_mem o ht2, rfl⟩)
  | case5 d ds o os hne ih =>
    intro l hl
    simp only [lineDiff] at hl
    rw [if_neg hne] at hl
    rcases List.mem_cons.mp hl with rfl | hl'
    · exact Or.inr (Or.inl ⟨o, List.mem_cons_self o os, rfl⟩)
    · rcases List.mem_cons.mp hl' with rfl | hl''
      · exact Or.inl ⟨d, List.mem_cons_self d ds, rfl⟩
      · rcases ih l hl'' with ⟨t, ht, rfl⟩ | ⟨t, ht, rfl⟩ | ⟨t, ht1, ht2, rfl⟩
        · exact Or.inl ⟨t, List.mem_cons_of_mem d ht, rfl⟩
        · exact Or.inr (Or.inl ⟨t, List.mem_cons_of_mem o ht, rfl⟩)
        · exact Or.inr (Or.inr ⟨t, List.mem_cons_of_mem d ht1,
            List.mem_cons_of_mem o ht2, rfl⟩)

theorem flatMap_render (cs : List Change) :
    cs.flatMap (fun c =>
        if c.kind = ChangeKind.Noop then [] else headerLine c :: c.diffLines) =
      (cs.filter (fun c => ¬ c.kind = ChangeKind.Noop)).flatMap
        (fun c => headerLine c :: c.diffLines) := by
  induction cs with
  | nil => rfl
  | cons c cs ih =>
    by_cases hc : c.kind = ChangeKind.Noop
    · rw [List.flatMap_cons, if_pos hc, List.nil_append, ih]
      simp only [List.filter_cons]
      rw [if_neg (by simp [hc])]
    · rw [List.flatMap_cons, if_neg hc, ih]
      simp only [List.filter_cons]
      rw [if_pos (decide_eq_true hc), List.flatMap_cons]

theorem detect_diffLines (canon : String → String) (exempt : List String)
    (desired : List JobDefinition) (observed : List RemoteJob) :
    ∀ c ∈ (detect canon exempt desired observed).changes,
      c.diffLines = [] ∨ ∃ a b, c.diffLines = lineDiff a b := by
  intro c hc
  rw [detect_changes_eq] at hc
  rcases List.mem_append.mp hc with hA | hB
  · rcases List.mem_map.mp hA with ⟨d, -, rfl⟩
    unfold detectOne
    split
    · left; rfl
    · dsimp only
      split
      · left; rfl
      · right; exact ⟨_, _, rfl⟩
  · left
    rw [detectDeletes_eq] at hB
    rcases List.mem_map.mp hB with ⟨r, -, rfl⟩
    rfl

/-- Claim C1: for every desired/observed pair (under the spec's unique-name
invariant), `detect` emits the Creates exactly for the names only in
desired — each carrying the desired XML and no observed XML — and the
Deletes exactly for the non-exempt names only in observed; each such name
gets exactly one such change, and no other Creates or Deletes appear. -/
theorem detect_creates_and_deletes_exact (canon : String → String)
    (exempt : List String) (desired : List JobDefinition)
    (observed : List RemoteJob)
    (hd : (desired.map JobDefinition.name).Nodup)
    (ho : (observed.map RemoteJob.name).Nodup) :
    (((detect canon exempt desired observed).changes.filter
        (fun c => c.kind = ChangeKind.Create)).map Change.name =
      (desired.map JobDefinition.name).filter
        (fun m => ¬ m ∈ observed.map RemoteJob.name)) ∧
    (((detect canon exempt desired observed).changes.filter
        (fun c => c.kind = ChangeKind.Delete)).map Change.name =
      (observed.map RemoteJob.name).filter
        (fun m => ¬ m ∈ desired.map JobDefinition.name ∧ ¬ m ∈ exempt)) ∧
    (∀ c ∈ (detect canon exempt desired observed).changes,
      c.kind = ChangeKind.Create →
        c.observed = none ∧ ∃ d ∈ desired, c.name = d.name ∧
          c.desired = some d.canonicalXML) ∧
    (∀ n, n ∈ desired.map JobDefinition.name →
      ¬ n ∈ observed.map RemoteJob.name →
      (((detect canon exempt desired observed).changes.filter
          (fun c => c.kind = ChangeKind.Create)).map Change.name).count n
        = 1) ∧
    (∀ n, n ∈ observed.map RemoteJob.name →
      ¬ n ∈ desired.map JobDefinition.name → ¬ n ∈ exempt →
      (((detect canon exempt desired observed).changes.filter
          (fun c => c.kind = ChangeKind.Delete)).map Change.name).count n
        = 1) := by
  refine ⟨detect_filter_create canon exempt desired observed,
    detect_delete_names canon exempt desired observed, ?_, ?_, ?_⟩
  · intro c hc hk
    rw [detect_changes_eq] at hc
    rcases List.mem_append.mp hc with hA | hB
    · rcases List.mem_map.mp hA with ⟨d, hdm, rfl⟩
      cases hf : observed.find? (fun r => r.name = d.name) with
      | none =>
        rw [detectOne_create canon observed d hf]
        exact ⟨rfl, d, hdm, rfl, rfl⟩
      | some r =>
        exfalso
        have := (detectOne_kind_create_iff canon observed d).mp hk
        rw [hf] at this
        exact Option.noConfusion this
    · exfalso
      have hdel := detectDeletes_kind exempt desired observed c hB
      rw [hdel] at hk
      exact ChangeKind.noConfusion hk
  · intro n hn hno
    rw [detect_filter_create canon exempt desired observed]
    have hnodup := hd.filter
      (fun m => decide (¬ m ∈ observed.map RemoteJob.name))
    have hmem : n ∈ (desired.map JobDefinition.name).filter
        (fun m => ¬ m ∈ observed.map RemoteJob.name) :=
      List.mem_filter.mpr ⟨hn, decide_eq_true hno⟩
    exact List.count_eq_one_of_mem hnodup hmem
  · intro n hn hnd hne
    rw [detect_delete_names canon exempt desired observed]
    have hnodup := ho.filter
      (fun m => decide (¬ m ∈ desired.map JobDefinition.name ∧ ¬ m ∈ exempt))
    have hmem : n ∈ (observed.map RemoteJob.name).filter
        (fun m => ¬ m ∈ desired.map JobDefinition.name ∧ ¬ m ∈ exempt) :=
      List.mem_filter.mpr ⟨hn, decide_eq_true ⟨hnd, hne⟩⟩
    exact List.count_eq_one_of_mem hnodup hmem

/-- Witness for C1: desired lone job `b`, observed lone job `c` — exactly
one Create named `b` and exactly one Delete named `c`. -/
theorem detect_creates_and_deletes_exact_witness :
    (((detect id [] [{ name := "b", canonicalXML := "y" }]
        [{ name := "c", liveXML := "z" }]).changes.filter
        (fun c => c.kind = ChangeKind.Create)).map Change.name).count "b"
      = 1 ∧
    (((detect id [] [{ name := "b", canonicalXML := "y" }]
        [{ name := "c", liveXML := "z" }]).changes.filter
        (fun c => c.kind = ChangeKind.Delete)).map Change.name).count "c"
      = 1 := by
  have h := detect_creates_and_deletes_exact id []
    [{ name := "b", canonicalXML := "y" }] [{ name := "c", liveXML := "z" }]
    (by decide) (by decide)
  exact ⟨h.2.2.2.1 "b" (by decide) (by decide),
    h.2.2.2.2 "c" (by decide) (by decide) (by decide)⟩

/-- Claim C2: when the two sides already agree for every job — every
desired job has an observed counterpart of the same name whose XML
canonicalizes equal, and every observed job is desired — `detect` yields a
plan whose every change is a Noop and whose hasChanges flag is false. -/
theorem detect_in_sync_all_noop (canon : String → String)
    (exempt : List String) (desired : List JobDefinition)
    (observed : List RemoteJob)
    (ho : (observed.map RemoteJob.name).Nodup)
    (h1 : ∀ d ∈ desired, ∃ r ∈ observed, r.name = d.name ∧
      canon r.liveXML = canon d.canonicalXML)
    (h2 : ∀ r ∈ observed, ∃ d ∈ desired, d.name = r.name) :
    (∀ c ∈ (detect canon exempt desired observed).changes,
      c.kind = ChangeKind.Noop) ∧
    (detect canon exempt desired observed).hasChanges = false := by
  have hB : detectDeletes exempt desired observed = [] := by
    rw [detectDeletes_eq]
    have hfil : observed.filter (fun r =>
        !desired.any (fun d => d.name = r.name) &&
          !exempt.contains r.name) = [] := by
      rw [List.filter_eq_nil_iff]
      intro r hr
      rcases h2 r hr with ⟨d, hdm, hdn⟩
      have hany : desired.any (fun x => x.name = r.name) = true :=
        List.any_eq_true.mpr ⟨d, hdm, decide_eq_true hdn⟩
      simp [hany]
    rw [hfil]
    rfl
  have hall : ∀ c ∈ (detect canon exempt desired observed).changes,
      c.kind = ChangeKind.Noop := by
    intro c hc
    rw [detect_changes_eq, hB, List.append_nil] at hc
    rcases List.mem_map.mp hc with ⟨d, hdm, rfl⟩
    rcases h1 d hdm with ⟨r, hr, hrn, hcanon⟩
    rw [detectOne_noop canon observed d r
      (find?_name_of_nodup observed ho r hr d.name hrn) hcanon.symm]
  refine ⟨hall, ?_⟩
  have hdef : (detect canon exempt desired observed).hasChanges =
      (detect canon exempt desired observed).changes.any
        (fun c => c.kind ≠ ChangeKind.Noop) := rfl
  rw [hdef, List.any_eq_false]
  intro c hc
  simp [hall c hc]

/-- Witness for C2: a single job `a` with identical XML on both sides. -/
theorem detect_in_sync_all_noop_witness :
    (∀ c ∈ (detect id [] [{ name := "a", canonicalXML := "x" }]
        [{ name := "a", liveXML := "x" }]).changes,
      c.kind = ChangeKind.Noop) ∧
    (detect id [] [{ name := "a", canonicalXML := "x" }]
        [{ name := "a", liveXML := "x" }]).hasChanges = false :=
  detect_in_sync_all_noop id [] [{ name := "a", canonicalXML := "x" }]
    [{ name := "a", liveXML := "x" }] (by decide) (by decide) (by decide)

/-- Claim C3: a job present on both sides whose two XML bodies normalize to
the same canonical text yields a Noop for that job, never an Update. -/
theorem detect_equal_normalization_noop (canon : String → String)
    (exempt : List String) (desired : List JobDefinition)
    (observed : List RemoteJob) (d : JobDefinition) (r : RemoteJob)
    (hd : (desired.map JobDefinition.name).Nodup)
    (hmem : d ∈ desired)
    (hfind : observed.find? (fun x => x.name = d.name) = some r)
    (hnorm : canon d.canonicalXML = canon r.liveXML) :
    (∃ c ∈ (detect canon exempt desired observed).changes,
      c.name = d.name ∧ c.kind = ChangeKind.Noop) ∧
    (∀ c ∈ (detect canon exempt desired observed).changes,
      c.name = d.name → c.kind = ChangeKind.Noop) := by
  have hone := detectOne_noop canon observed d r hfind hnorm
  constructor
  · refine ⟨detectOne canon observed d, ?_, ?_, ?_⟩
    · rw [detect_changes_eq]
      exact List.mem_append.mpr (Or.inl (List.mem_map_of_mem _ hmem))
    · rw [hone]
    · rw [hone]
  · intro c hc hcn
    rw [detect_changes_eq] at hc
    rcases List.mem_append.mp hc with hA | hB
    · rcases List.mem_map.mp hA with ⟨d', hd', rfl⟩
      have hdd : d' = d := List.inj_on_of_nodup_map hd hd' hmem
        (by rw [← detectOne_name canon observed d', hcn])
      rw [hdd, hone]
    · exfalso
      rw [detectDeletes_eq] at hB
      rcases List.mem_map.mp hB with ⟨r0, hr0, rfl⟩
      rcases List.mem_filter.mp hr0 with ⟨-, hpred⟩
      have hany : desired.any (fun d' => d'.name = r0.name) = true :=
        List.any_eq_true.mpr ⟨d, hmem, decide_eq_true hcn.symm⟩
      simp [hany] at hpred

/-- Witness for C3: both sides hold job `a` with different raw XML that a
constant canonicalization maps to the same text; the change is a Noop. -/
theorem detect_equal_normalization_noop_witness :
    (∃ c ∈ (detect (fun _ => "n") [] [{ name := "a", canonicalXML := "x1" }]
        [{ name := "a", liveXML := "x2" }]).changes,
      c.name = "a" ∧ c.kind = ChangeKind.Noop) ∧
    (∀ c ∈ (detect (fun _ => "n") [] [{ name := "a", canonicalXML := "x1" }]
        [{ name := "a", liveXML := "x2" }]).changes,
      c.name = "a" → c.kind = ChangeKind.Noop) := by
  have h := detect_equal_normalization_noop (fun _ => "n") []
    [{ name := "a", canonicalXML := "x1" }] [{ name := "a", liveXML := "x2" }]
    { name := "a", canonicalXML := "x1" } { name := "a", liveXML := "x2" }
    (by decide) (by decide) (by decide) rfl
  exact h

/-- Claim C4: detect is deterministic — identical inputs give an identical
plan — and the plan lists Creates, Updates and Noops in desired-input
order (their names are exactly the desired names in order) followed by the
Deletes in observed-discovery order. -/
theorem detect_deterministic_ordering (canon : String → String)
    (exempt : List String) (D D' : List JobDefinition)
    (O O' : List RemoteJob) (hD : D = D') (hO : O = O') :
    detect canon exempt D O = detect canon exempt D' O' ∧
    ((detect canon exempt D O).changes.filter
        (fun c => ¬ c.kind = ChangeKind.Delete)).map Change.name =
      D.map JobDefinition.name ∧
    ((detect canon exempt D O).changes.filter
        (fun c => c.kind = ChangeKind.Delete)).map Change.name =
      (O.map RemoteJob.name).filter
        (fun m => ¬ m ∈ D.map JobDefinition.name ∧ ¬ m ∈ exempt) ∧
    (detect canon exempt D O).changes =
      (detect canon exempt D O).changes.filter
        (fun c => ¬ c.kind = ChangeKind.Delete) ++
      (detect canon exempt D O).changes.filter
        (fun c => c.kind = ChangeKind.Delete) := by
  subst hD
  subst hO
  refine ⟨rfl, ?_, detect_delete_names canon exempt D O, ?_⟩
  · rw [detect_filter_nonDelete, List.map_map]
    exact List.map_congr_left (fun d _ => detectOne_name canon O d)
  · rw [detect_filter_nonDelete, detect_filter_delete, detect_changes_eq]

/-- Witness for C4 at a concrete pair: desired `a`, observed `b`. -/
theorem detect_deterministic_ordering_witness :
    detect id [] [{ name := "a", canonicalXML := "x" }]
        [{ name := "b", liveXML := "y" }] =
      detect id [] [{ name := "a", canonicalXML := "x" }]
        [{ name := "b", liveXML := "y" }] ∧
    ((detect id [] [{ name := "a", canonicalXML := "x" }]
        [{ name := "b", liveXML := "y" }]).changes.filter
        (fun c => ¬ c.kind = ChangeKind.Delete)).map Change.name =
      [{ name := "a", canonicalXML := "x" }].map JobDefinition.name ∧
    ((detect id [] [{ name := "a", canonicalXML := "x" }]
        [{ name := "b", liveXML := "y" }]).changes.filter
        (fun c => c.kind = ChangeKind.Delete)).map Change.name =
      ([{ name := "b", liveXML := "y" }].map RemoteJob.name).filter
        (fun m => ¬ m ∈ [{ name := "a", canonicalXML := "x" }].map
            JobDefinition.name ∧ ¬ m ∈ ([] : List String)) ∧
    (detect id [] [{ name := "a", canonicalXML := "x" }]
        [{ name := "b", liveXML := "y" }]).changes =
      (detect id [] [{ name := "a", canonicalXML := "x" }]
        [{ name := "b", liveXML := "y" }]).changes.filter
        (fun c => ¬ c.kind = ChangeKind.Delete) ++
      (detect id [] [{ name := "a", canonicalXML := "x" }]
        [{ name := "b", liveXML := "y" }]).changes.filter
        (fun c => c.kind = ChangeKind.Delete) :=
  detect_deterministic_ordering id [] [{ name := "a", canonicalXML := "x" }]
    [{ name := "a", canonicalXML := "x" }] [{ name := "b", liveXML := "y" }]
    [{ name := "b", liveXML := "y" }] rfl rfl

/-- Claim C5: apply attempts every non-Noop step of the plan even when an
earlier remote call fails — attempted counts all non-Noop changes, the
failures accumulate in plan order, succeeded and failed add up to
attempted — and for a 3-Create plan whose 2nd remote call errors the
result is attempted 3, succeeded 2, failed [(job2, err)]. -/
theorem applyPlan_partial_failure (remote : StepOutcome) (plan : Plan) :
    (applyPlan remote plan).attempted =
      plan.changes.countP (fun c => ¬ c.kind = ChangeKind.Noop) ∧
    (applyPlan remote plan).failed =
      plan.changes.filterMap (stepError remote) ∧
    (applyPlan remote plan).succeeded +
        (applyPlan remote plan).failed.length =
      (applyPlan remote plan).attempted ∧
    applyPlan (fun c => if c.name = "job2" then some "err" else none)
        { changes :=
            [{ name := "job1", kind := ChangeKind.Create,
               desired := some "x1", observed := none, diffLines := [] },
             { name := "job2", kind := ChangeKind.Create,
               desired := some "x2", observed := none, diffLines := [] },
             { name := "job3", kind := ChangeKind.Create,
               desired := some "x3", observed := none, diffLines := [] }],
          creates := 3, updates := 0, deletes := 0, hasChanges := true } =
      { attempted := 3, succeeded := 2, failed := [("job2", "err")] } := by
  refine ⟨?_, ?_, ?_, ?_⟩
  · have h := applyFold_attempted remote plan.changes ⟨0, 0, []⟩
    simpa [applyPlan] using h
  · have h := applyFold_failed remote plan.changes ⟨0, 0, []⟩
    simpa [applyPlan] using h
  · have h1 := applyFold_sum remote plan.changes ⟨0, 0, []⟩
    have h2 := applyFold_attempted remote plan.changes ⟨0, 0, []⟩
    simp only [List.length_nil, Nat.add_zero, Nat.zero_add] at h1 h2
    unfold applyPlan
    omega
  · rfl

/-- Claim C6: render emits, for each non-Noop change only, a header line
followed by that change's diff lines; Noop changes contribute no lines;
and every diff line of a detected plan carries exactly one leading
marker — `+` for a desired-only line, `-` for an observed-only line, ` `
for a line on both sides. -/
theorem render_non_noop_markers (canon : String → String)
    (exempt : List String) (D : List JobDefinition) (O : List RemoteJob) :
    render (detect canon exempt D O) =
      ((detect canon exempt D O).changes.filter
          (fun c => ¬ c.kind = ChangeKind.Noop)).flatMap
        (fun c => headerLine c :: c.diffLines) ∧
    (∀ c ∈ (detect canon exempt D O).changes, ∀ l ∈ c.diffLines,
      (∃ t, l = "+" ++ t) ∨ (∃ t, l = "-" ++ t) ∨ (∃ t, l = " " ++ t)) ∧
    (∀ (a b : List String), ∀ l ∈ lineDiff a b,
      (∃ t ∈ a, l = "+" ++ t) ∨ (∃ t ∈ b, l = "-" ++ t) ∨
        (∃ t, t ∈ a ∧ t ∈ b ∧ l = " " ++ t)) := by
  refine ⟨flatMap_render _, ?_, lineDiff_markers_general⟩
  intro c hc l hl
  rcases detect_diffLines canon exempt D O c hc with h | ⟨a, b, h⟩
  · rw [h] at hl
    simp at hl
  · rw [h] at hl
    rcases lineDiff_markers_general a b l hl with
      ⟨t, -, rfl⟩ | ⟨t, -, rfl⟩ | ⟨t, -, -, rfl⟩
    · exact Or.inl ⟨t, rfl⟩
    · exact Or.inr (Or.inl ⟨t, rfl⟩)
    · exact Or.inr (Or.inr ⟨t, rfl⟩)

/-- Claim C7: a RemoteError while fetching observed state aborts gather
with no plan produced at all, whereas an apply-time step error is
accumulated into ApplyResult.failed instead of aborting the batch. -/
theorem gather_fatal_apply_accumulates (canon : String → String)
    (exempt : List String) (desired : List JobDefinition)
    (e : RemoteError) :
    (gather canon exempt desired (Except.error e) = Except.error e ∧
      ∀ p : Plan,
        ¬ gather canon exempt desired (Except.error e) = Except.ok p) ∧
    (∀ (remote : StepOutcome) (plan : Plan) (c : Change) (err : String),
      c ∈ plan.changes → ¬ c.kind = ChangeKind.Noop →
      remote c = some err →
        (c.name, err) ∈ (applyPlan remote plan).failed) := by
  refine ⟨⟨rfl, ?_⟩, ?_⟩
  · intro p h
    simp [gather] at h
  · intro remote plan c err hc hk hr
    have hfail : (applyPlan remote plan).failed =
        plan.changes.filterMap (stepError remote) := by
      have h := applyFold_failed remote plan.changes ⟨0, 0, []⟩
      simpa [applyPlan] using h
    rw [hfail]
    exact List.mem_filterMap.mpr ⟨c, hc, by simp [stepError, hk, hr]⟩

/-- Witness for C7: a failed fetch yields the error and no plan, and a
failing create lands in the failed list. -/
theorem gather_fatal_apply_accumulates_witness :
    gather id [] [] (Except.error { status := 500, message := "boom" }) =
      Except.error { status := 500, message := "boom" } ∧
    ("job1", "err") ∈ (applyPlan (fun _ => some "err")
      { changes :=
          [{ name := "job1", kind := ChangeKind.Create,
             desired := some "x", observed := none, diffLines := [] }],
        creates := 1, updates := 0, deletes := 0,
        hasChanges := true }).failed := by
  have h := gather_fatal_apply_accumulates id [] []
    { status := 500, message := "boom" }
  exact ⟨h.1.1, h.2 (fun _ => some "err") _
    { name := "job1", kind := ChangeKind.Create,
      desired := some "x", observed := none, diffLines := [] } "err"
    (List.mem_cons_self _ _) (by decide) rfl⟩

end Core

namespace Cli

/-- Claim C8: every CLI entry point that gathers or mutates state — plan,
apply, import — reaches gather only after a successful authentication
check; when the check fails the command exits with status 1 before
gathering. -/
theorem commands_require_auth (env : CliEnv) (h : env.authOk = false) :
    ((jjm_plan env).gathered = false ∧ (jjm_plan env).exitCode = 1) ∧
    ((jjm_apply env).gathered = false ∧ (jjm_apply env).applied = false ∧
      (jjm_apply env).exitCode = 1) ∧
    ((jjm_import env).gathered = false ∧ (jjm_import env).imported = false ∧
      (jjm_import env).exitCode = 1) := by
  rcases env with ⟨a, b, c⟩
  simp only [CliEnv.authOk] at h
  subst h
  cases b <;> cases c <;> decide

/-- Witness for C8: a failed auth check with changes pending. -/
theorem commands_require_auth_witness :
    ((jjm_plan ⟨false, true, true⟩).gathered = false ∧
      (jjm_plan ⟨false, true, true⟩).exitCode = 1) ∧
    ((jjm_apply ⟨false, true, true⟩).gathered = false ∧
      (jjm_apply ⟨false, true, true⟩).applied = false ∧
      (jjm_apply ⟨false, true, true⟩).exitCode = 1) ∧
    ((jjm_import ⟨false, true, true⟩).gathered = false ∧
      (jjm_import ⟨false, true, true⟩).imported = false ∧
      (jjm_import ⟨false, true, true⟩).exitCode = 1) :=
  commands_require_auth ⟨false, true, true⟩ rfl

/-- Claim C9: once authentication succeeds, the plan command terminates
with exit status 0 whether or not changes were detected — the Exit(2) on
the changes branch is constructed but never raised, so the exit code
cannot distinguish the two outcomes. -/
theorem plan_exits_zero_despite_changes (env : CliEnv)
    (h : env.authOk = true) :
    (jjm_plan env).exitCode = 0 ∧
    (jjm_plan { env with hasChanges := true }).exitCode =
      (jjm_plan { env with hasChanges := false }).exitCode := by
  rcases env with ⟨a, b, c⟩
  simp only [CliEnv.authOk] at h
  subst h
  cases b <;> cases c <;> decide

/-- Witness for C9: authenticated run with changes detected still exits 0. -/
theorem plan_exits_zero_despite_changes_witness :
    (jjm_plan ⟨true, true, true⟩).exitCode = 0 ∧
    (jjm_plan ⟨true, true, true⟩).exitCode =
      (jjm_plan ⟨true, false, true⟩).exitCode :=
  plan_exits_zero_despite_changes ⟨true, true, true⟩ rfl

/-- Claim C10: the apply command mutates remote state only behind
confirmation — apply_plan runs exactly when authentication succeeded,
changes were detected and the user confirmed; with no changes it returns
normally untouched, and a declined prompt leaves the remote untouched. -/
theorem apply_requires_confirmation (env : CliEnv) :
    ((jjm_apply env).applied = true ↔
      env.authOk = true ∧ env.hasChanges = true ∧
        env.confirmApply = true) ∧
    (env.hasChanges = false → env.authOk = true →
      jjm_apply env = ⟨0, true, false, false⟩) ∧
    (env.confirmApply = false → (jjm_apply env).applied = false) := by
  rcases env with ⟨a, b, c⟩
  cases a <;> cases b <;> cases c <;> decide

/-- Witness for C10: authenticated, no changes — apply returns normally
without touching the remote. -/
theorem apply_requires_confirmation_witness :
    jjm_apply ⟨true, false, true⟩ = ⟨0, true, false, false⟩ :=
  (apply_requires_confirmation ⟨true, false, true⟩).2.1 rfl rfl

end Cli
